import Mathlib

/-!
# Verification of the Naive Bayes sentiment pipeline

Shallow embedding of `src/data_processing.py` and `src/naive_bayes.py`.

Conventions of the embedding:
* Python floats are modelled by `ℚ` for the exact arithmetic of the
  estimator, and by `ℝ` wherever the code applies `log` / `exp`
  (`estimate_class_posteriors`, `softmax`).
* Python dicts (which preserve insertion order) are modelled by
  association lists `List (κ × β)`; `dict[k]` is `find?` on the key.
* A raised exception is modelled by `Option.none`.
-/

namespace NBPipeline

/-- Association-list lookup, modelling Python `d[k]` / `k in d` for the
insertion-ordered dicts used throughout the source. -/
def lookupKey {β : Type} (l : List (ℤ × β)) (c : ℤ) : Option β :=
  (l.find? (fun p => decide (p.1 = c))).map Prod.snd

/-- String-keyed variant of `lookupKey`, used for vocabularies
(`vocab[word]` in `bag_of_words`). -/
def vocabLookup (vocab : List (String × ℕ)) (w : String) : Option ℕ :=
  (vocab.find? (fun p => decide (p.1 = w))).map Prod.snd

/-- The first-occurrence subsequence of a list: the insertion order of the
keys of a Python dict / `Counter` fed the elements of `l` in order. -/
def firstOccurrences {α : Type} [DecidableEq α] (l : List α) : List α :=
  l.foldl (fun acc x => if x ∈ acc then acc else acc ++ [x]) []

/-- One step of `build_vocab` (`src/data_processing.py` lines 60-63): if the
word is not yet a key, append it with the running counter `i` and bump `i`.
The state is the pair `(vocab, i)`. -/
def buildVocabStep (st : List (String × ℕ) × ℕ) (word : String) :
    List (String × ℕ) × ℕ :=
  if word ∈ st.1.map Prod.fst then st else (st.1 ++ [(word, st.2)], st.2 + 1)

/-- `build_vocab` (`src/data_processing.py` lines 41-65): fold over the
examples, and over the words of each example, assigning the next unused
index to each unseen word.  An example is modelled by its token list
(the `_words` field of `SentimentExample`). -/
def build_vocab (examples : List (List String)) : List (String × ℕ) :=
  (examples.foldl (fun st words => words.foldl buildVocabStep st) ([], 0)).1

/-- One loop iteration of `bag_of_words` (`src/data_processing.py`
lines 86-92): look the word up in the vocabulary; on a hit either set the
slot to 1 (binary mode) or increment it (count mode); out-of-vocabulary
words leave the vector unchanged. -/
def bowStep (vocab : List (String × ℕ)) (binary : Bool) (bow : List ℚ)
    (word : String) : List ℚ :=
  match vocabLookup vocab word with
  | some idx => if binary then bow.set idx 1 else bow.set idx (bow.getD idx 0 + 1)
  | none => bow

/-- `bag_of_words` (`src/data_processing.py` lines 68-94): start from the
zero vector of length `len(vocab)` and fold `bowStep` over the text. -/
def bag_of_words (text : List String) (vocab : List (String × ℕ))
    (binary : Bool) : List ℚ :=
  text.foldl (bowStep vocab binary) (List.replicate vocab.length 0)

/-- `features.shape[1]` of a (non-empty, rectangular) feature matrix
modelled as a list of rows. -/
def shape1 (features : List (List ℚ)) : ℕ := (features.headD []).length

/-- The `NaiveBayes` class state (`src/naive_bayes.py` lines 14-20):
`class_priors` and `conditional_probabilities` are insertion-ordered dicts,
modelled as association lists; `vocab_size` an integer. -/
structure NaiveBayes where
  class_priors : List (ℤ × ℚ)
  conditional_probabilities : List (ℤ × List ℚ)
  vocab_size : ℕ
deriving DecidableEq

/-- `NaiveBayes.__init__`: both dicts start empty (`{}` — not `None`). -/
def NaiveBayes.init : NaiveBayes := ⟨[], [], 0⟩

/-- `estimate_class_priors` (`src/naive_bayes.py` lines 37-55):
`Counter(labels.tolist())` counts each label, keys in first-encounter
order; each prior is `count / total_count`. -/
def estimate_class_priors (labels : List ℤ) : List (ℤ × ℚ) :=
  (firstOccurrences labels).map
    (fun c => (c, (labels.count c : ℚ) / (labels.length : ℚ)))

/-- `torch.unique(labels)`: the distinct label values in sorted order. -/
def uniqueSorted (labels : List ℤ) : List ℤ :=
  (firstOccurrences labels).insertionSort (· ≤ ·)

/-- `torch.sum(class_examples, dim=0)`: element-wise sum of the selected
rows, starting from the zero vector of width `n` (the width a 0×n tensor
keeps). -/
def vecSum (n : ℕ) (rows : List (List ℚ)) : List ℚ :=
  rows.foldl (fun acc r => List.zipWith (· + ·) acc r) (List.replicate n 0)

/-- `features[labels == class_label]`: the rows of `features` whose
(position-paired) label equals `class_label`. -/
def classRows (features : List (List ℚ)) (labels : List ℤ) (c : ℤ) :
    List (List ℚ) :=
  ((features.zip labels).filter (fun p => decide (p.2 = c))).map Prod.fst

/-- `estimate_conditional_probabilities` (`src/naive_bayes.py` lines
57-86): for each class in `torch.unique(labels)`, select the rows of that
class (`features[labels == class_label]`), sum them element-wise, and map
each word count through
`(word_count + delta) / (total_words + delta * features.shape[1])`. -/
def estimate_conditional_probabilities (features : List (List ℚ))
    (labels : List ℤ) (delta : ℚ) : List (ℤ × List ℚ) :=
  (uniqueSorted labels).map (fun c =>
    let wordCounts := vecSum (shape1 features) (classRows features labels c)
    (c, wordCounts.map (fun w =>
      (w + delta) / (wordCounts.sum + delta * ((shape1 features) : ℚ)))))

/-- `fit` (`src/naive_bayes.py` lines 22-35): estimate the priors, record
`vocab_size = features.shape[1]`, estimate the conditionals. -/
def NaiveBayes.fit (features : List (List ℚ)) (labels : List ℤ)
    (delta : ℚ) : NaiveBayes :=
  { class_priors := estimate_class_priors labels
    vocab_size := shape1 features
    conditional_probabilities :=
      estimate_conditional_probabilities features labels delta }

/-- `estimate_class_posteriors` (`src/naive_bayes.py` lines 88-115): for
each `(class_label, class_prior)` of `class_priors` in insertion order,
`log(prior) + sum(feature * log(conditional_probabilities[class_label]))`.
The guard in the source compares the two dict fields against `None`, but
`__init__` sets them to `{}` and nothing ever assigns `None`, so the guard
can never fire; on an untrained model the loop body runs zero times and a
zero-length tensor is returned, which this embedding reproduces.  (A
missing key would raise `KeyError` in Python; the `.getD []` default is
only reachable in that case, which no trained model produces.) -/
noncomputable def NaiveBayes.estimate_class_posteriors (m : NaiveBayes)
    (feature : List ℚ) : List ℝ :=
  m.class_priors.map (fun p =>
    Real.log (p.2 : ℝ) +
      (List.zipWith (fun (fi ci : ℚ) => (fi : ℝ) * Real.log (ci : ℝ)) feature
        ((lookupKey m.conditional_probabilities p.1).getD [])).sum)

/-- `torch.argmax` on a one-dimensional tensor: the index of the first
maximal entry (0 on the empty tensor, where torch would raise). -/
noncomputable def argmaxIdx : List ℝ → ℕ
  | [] => 0
  | [_] => 0
  | x :: y :: ys =>
      if x < (y :: ys).getD (argmaxIdx (y :: ys)) 0
      then argmaxIdx (y :: ys) + 1 else 0

/-- `predict` (`src/naive_bayes.py` lines 117-137): raise (here: `none`)
when either dict is empty, otherwise return
`torch.argmax(log_posteriors).item()` — the *position* of the maximising
class, as a Python `int`. -/
noncomputable def NaiveBayes.predict (m : NaiveBayes) (feature : List ℚ) :
    Option ℤ :=
  if m.class_priors = [] ∨ m.conditional_probabilities = [] then none
  else some ((argmaxIdx (m.estimate_class_posteriors feature) : ℤ))

/-- `torch.softmax` on a one-dimensional tensor: exponentiate and divide
by the sum (the numerically-stable shifted form torch uses is equal to
this in exact arithmetic). -/
noncomputable def softmax (l : List ℝ) : List ℝ :=
  l.map (fun x => Real.exp x / (l.map Real.exp).sum)

/-- `predict_proba` (`src/naive_bayes.py` lines 139-158): raise (here:
`none`) when either dict is empty, otherwise softmax the log posteriors. -/
noncomputable def NaiveBayes.predict_proba (m : NaiveBayes)
    (feature : List ℚ) : Option (List ℝ) :=
  if m.class_priors = [] ∨ m.conditional_probabilities = [] then none
  else some (softmax (m.estimate_class_posteriors feature))

/-! ### Lemmas about `firstOccurrences` -/

theorem mem_foldl_insert {α : Type} [DecidableEq α] (l acc : List α) (x : α) :
    x ∈ l.foldl (fun a y => if y ∈ a then a else a ++ [y]) acc ↔
      x ∈ acc ∨ x ∈ l := by
  induction l generalizing acc with
  | nil => simp
  | cons y ys ih =>
    rw [List.foldl_cons, ih]
    by_cases h : y ∈ acc
    · rw [if_pos h]
      constructor
      · rintro (h1 | h1)
        · exact Or.inl h1
        · exact Or.inr (List.mem_cons_of_mem _ h1)
      · rintro (h1 | h1)
        · exact Or.inl h1
        · rcases List.mem_cons.mp h1 with rfl | h1
          · exact Or.inl h
          · exact Or.inr h1
    · rw [if_neg h]
      simp [List.mem_append, List.mem_cons, or_assoc]

theorem mem_firstOccurrences {α : Type} [DecidableEq α] (l : List α) (x : α) :
    x ∈ firstOccurrences l ↔ x ∈ l := by
  rw [firstOccurrences, mem_foldl_insert]
  simp

theorem nodup_foldl_insert {α : Type} [DecidableEq α] (l acc : List α)
    (h : acc.Nodup) :
    (l.foldl (fun a y => if y ∈ a then a else a ++ [y]) acc).Nodup := by
  induction l generalizing acc with
  | nil => simpa
  | cons y ys ih =>
    rw [List.foldl_cons]
    apply ih
    by_cases hy : y ∈ acc
    · rwa [if_pos hy]
    · rw [if_neg hy, List.nodup_append]
      refine ⟨h, List.nodup_singleton y, ?_⟩
      intro a ha hay
      rcases List.mem_singleton.mp hay with rfl
      exact hy ha

theorem nodup_firstOccurrences {α : Type} [DecidableEq α] (l : List α) :
    (firstOccurrences l).Nodup :=
  nodup_foldl_insert l [] List.nodup_nil

theorem firstOccurrences_append_singleton {α : Type} [DecidableEq α]
    (t : List α) (w : α) :
    firstOccurrences (t ++ [w]) =
      if w ∈ t then firstOccurrences t else firstOccurrences t ++ [w] := by
  rw [firstOccurrences, List.foldl_append, List.foldl_cons, List.foldl_nil,
    ← firstOccurrences]
  by_cases h : w ∈ t
  · rw [if_pos h, if_pos ((mem_firstOccurrences t w).mpr h)]
  · rw [if_neg h, if_neg (fun hc => h ((mem_firstOccurrences t w).mp hc))]

theorem firstOccurrences_ne_nil {α : Type} [DecidableEq α] (l : List α)
    (h : l ≠ []) : firstOccurrences l ≠ [] := by
  cases l with
  | nil => exact absurd rfl h
  | cons x xs =>
    intro hc
    have : x ∈ firstOccurrences (x :: xs) :=
      (mem_firstOccurrences _ x).mpr (List.mem_cons_self x xs)
    rw [hc] at this
    exact List.not_mem_nil x this

/-! ### Lemmas about the association-list lookups -/

theorem lookupKey_map_of_nodup {β : Type} (ks : List ℤ) (g : ℤ → β) (c : ℤ)
    (hnd : ks.Nodup) (hc : c ∈ ks) :
    lookupKey (ks.map (fun k => (k, g k))) c = some (g c) := by
  induction ks with
  | nil => cases hc
  | cons k ks ih =>
    rcases List.nodup_cons.mp hnd with ⟨hk, hnd'⟩
    by_cases hkc : k = c
    · subst hkc
      rw [lookupKey, List.map_cons, List.find?_cons_of_pos _ (by simp)]
      rfl
    · rcases List.mem_cons.mp hc with rfl | hc'
      · exact absurd rfl hkc
      · rw [lookupKey, List.map_cons, List.find?_cons_of_neg _ (by simp [hkc]),
          ← lookupKey]
        exact ih hnd' hc'

theorem vocabLookup_eq_some_iff (vocab : List (String × ℕ))
    (hk : (vocab.map Prod.fst).Nodup) (w : String) (i : ℕ) :
    vocabLookup vocab w = some i ↔ (w, i) ∈ vocab := by
  induction vocab with
  | nil => simp [vocabLookup]
  | cons p ps ih =>
    obtain ⟨a, b⟩ := p
    rw [List.map_cons] at hk
    rcases List.nodup_cons.mp hk with ⟨ha, hk'⟩
    by_cases haw : a = w
    · subst haw
      rw [vocabLookup, List.find?_cons_of_pos _ (by simp)]
      simp only [Option.map_some', List.mem_cons]
      constructor
      · intro h
        exact Or.inl (by simpa using congrArg (Prod.mk a) (Option.some.inj h).symm)
      · rintro (h | h)
        · rcases Prod.mk.injEq .. ▸ h with h'
          simp only [Prod.mk.injEq] at h'
          exact congrArg some h'.2.symm
        · exact absurd (List.mem_map_of_mem Prod.fst h) ha
    · rw [vocabLookup, List.find?_cons_of_neg _ (by simp [haw]), ← vocabLookup,
        ih hk']
      simp only [List.mem_cons, Prod.mk.injEq]
      constructor
      · exact Or.inr
      · rintro (⟨h1, _⟩ | h)
        · exact absurd h1.symm haw
        · exact h

/-! ### Lemmas about `argmaxIdx` -/

theorem argmaxIdx_lt_length (l : List ℝ) (h : l ≠ []) :
    argmaxIdx l < l.length := by
  induction l with
  | nil => exact absurd rfl h
  | cons x xs ih =>
    cases xs with
    | nil => simp [argmaxIdx]
    | cons y ys =>
      rw [argmaxIdx]
      split_ifs with hlt
      · exact Nat.succ_lt_succ (ih (List.cons_ne_nil y ys))
      · exact Nat.succ_pos _

theorem argmaxIdx_is_max (l : List ℝ) :
    ∀ i, i < l.length → l.getD i 0 ≤ l.getD (argmaxIdx l) 0 := by
  induction l with
  | nil => intro i hi; simp at hi
  | cons x xs ih =>
    cases xs with
    | nil =>
      intro i hi
      rw [List.length_singleton, Nat.lt_one_iff] at hi
      subst hi
      simp [argmaxIdx]
    | cons y ys =>
      intro i hi
      rw [argmaxIdx]
      split_ifs with hlt
      · rw [List.getD_cons_succ]
        cases i with
        | zero => exact le_of_lt hlt
        | succ i' =>
          rw [List.getD_cons_succ]
          exact ih i' (Nat.lt_of_succ_lt_succ hi)
      · rw [List.getD_cons_zero]
        cases i with
        | zero => exact le_refl x
        | succ i' =>
          rw [List.getD_cons_succ]
          exact le_trans (ih i' (Nat.lt_of_succ_lt_succ hi)) (not_lt.mp hlt)

theorem argmaxIdx_first_max (l : List ℝ) :
    ∀ j, j < argmaxIdx l → l.getD j 0 < l.getD (argmaxIdx l) 0 := by
  induction l with
  | nil => intro j hj; simp [argmaxIdx] at hj
  | cons x xs ih =>
    cases xs with
    | nil => intro j hj; simp [argmaxIdx] at hj
    | cons y ys =>
      intro j hj
      rw [argmaxIdx] at hj ⊢
      split_ifs with hlt
      · rw [if_pos hlt] at hj
        rw [List.getD_cons_succ]
        cases j with
        | zero => exact hlt
        | succ j' =>
          rw [List.getD_cons_succ]
          exact ih j' (Nat.lt_of_succ_lt_succ hj)
      · rw [if_neg hlt] at hj
        exact absurd hj (Nat.not_lt_zero j)

theorem estimate_class_posteriors_length (m : NaiveBayes) (f : List ℚ) :
    (m.estimate_class_posteriors f).length = m.class_priors.length := by
  simp [NaiveBayes.estimate_class_posteriors]

/-! ### Claim C3: behaviour of an untrained model -/

/-- **C3**.  On an untrained model (`__init__` only, `fit` never called)
`predict` and `predict_proba` do raise the model-not-trained error
(modelled by `none`), but `estimate_class_posteriors` does *not* raise: its
guard compares the dict fields against `None` while `__init__` initialises
them to `{}`, so the guard never fires and a zero-length tensor (here `[]`)
is returned.  This refutes the claim that all three operations raise. -/
theorem c3_untrained_model_operations (f : List ℚ) :
    NaiveBayes.init.estimate_class_posteriors f = [] ∧
    NaiveBayes.init.predict f = none ∧
    NaiveBayes.init.predict_proba f = none := by
  refine ⟨?_, ?_, ?_⟩
  · simp [NaiveBayes.estimate_class_posteriors, NaiveBayes.init]
  · simp [NaiveBayes.predict, NaiveBayes.init]
  · simp [NaiveBayes.predict_proba, NaiveBayes.init]

/-! ### Claim C9: `predict` returns the argmax position -/

/-- **C9**.  On any model whose two dicts are non-empty, `predict` returns
`some k` where `k` is a position in `[0, len(class_priors))`: the first
index of the `class_priors` iteration order whose log posterior is maximal
(every posterior is `≤` the one at `k`, and every earlier one is `<` it).
The returned value is this position regardless of the class label values. -/
theorem c9_predict_returns_argmax_position (m : NaiveBayes) (f : List ℚ)
    (h1 : m.class_priors ≠ []) (h2 : m.conditional_probabilities ≠ []) :
    ∃ k : ℕ, m.predict f = some (k : ℤ) ∧ k < m.class_priors.length ∧
      (∀ i, i < m.class_priors.length →
        (m.estimate_class_posteriors f).getD i 0 ≤
          (m.estimate_class_posteriors f).getD k 0) ∧
      ∀ j, j < k →
        (m.estimate_class_posteriors f).getD j 0 <
          (m.estimate_class_posteriors f).getD k 0 := by
  have hne : m.estimate_class_posteriors f ≠ [] := by
    apply List.ne_nil_of_length_pos
    rw [estimate_class_posteriors_length]
    exact List.length_pos.mpr h1
  refine ⟨argmaxIdx (m.estimate_class_posteriors f), ?_, ?_, ?_, ?_⟩
  · rw [NaiveBayes.predict, if_neg (by push_neg; exact ⟨h1, h2⟩)]
  · have h := argmaxIdx_lt_length (m.estimate_class_posteriors f) hne
    rwa [estimate_class_posteriors_length] at h
  · intro i hi
    exact argmaxIdx_is_max _ i (by rwa [estimate_class_posteriors_length])
  · exact argmaxIdx_first_max _

/-- Witness for C9 at the concrete model `fit [[1,0],[0,1]] [0,1] 1` and
feature `[1,0]`. -/
theorem c9_predict_returns_argmax_position_witness :
    ∃ k : ℕ, (NaiveBayes.fit [[1, 0], [0, 1]] [0, 1] 1).predict [1, 0] =
        some (k : ℤ) ∧
      k < (NaiveBayes.fit [[1, 0], [0, 1]] [0, 1] 1).class_priors.length ∧
      (∀ i, i < (NaiveBayes.fit [[1, 0], [0, 1]] [0, 1] 1).class_priors.length →
        ((NaiveBayes.fit [[1, 0], [0, 1]] [0, 1] 1).estimate_class_posteriors
            [1, 0]).getD i 0 ≤
          ((NaiveBayes.fit [[1, 0], [0, 1]] [0, 1] 1).estimate_class_posteriors
            [1, 0]).getD k 0) ∧
      ∀ j, j < k →
        ((NaiveBayes.fit [[1, 0], [0, 1]] [0, 1] 1).estimate_class_posteriors
            [1, 0]).getD j 0 <
          ((NaiveBayes.fit [[1, 0], [0, 1]] [0, 1] 1).estimate_class_posteriors
            [1, 0]).getD k 0 :=
  c9_predict_returns_argmax_position _ _ (by decide) (by decide)

/-! ### Claim C2: what `predict` actually returns -/

/-- **C2**.  Counterexample to "predict returns the class label (the key of
`class_priors`)": train on the single example `[[1]]` with label `1` and
`delta = 1`.  The only key of `class_priors` is `1`, so the class with
maximal log posterior is the class labelled `1`; yet `predict` returns
`0` — `torch.argmax(...).item()`, the *position* of that class. -/
theorem c2_predict_returns_position_not_key :
    (NaiveBayes.fit [[1]] [1] 1).predict [0] = some 0 ∧
    (NaiveBayes.fit [[1]] [1] 1).class_priors.map Prod.fst = [1] := by
  have h1 : (NaiveBayes.fit [[1]] [1] 1).class_priors = [(1, 1)] := by
    norm_num [NaiveBayes.fit, estimate_class_priors, firstOccurrences,
      List.count_cons]
  have h2 : (NaiveBayes.fit [[1]] [1] 1).conditional_probabilities =
      [(1, [1])] := by
    norm_num [NaiveBayes.fit, estimate_conditional_probabilities, uniqueSorted,
      firstOccurrences, List.insertionSort, List.orderedInsert, shape1, vecSum,
      classRows, List.filter, List.zipWith]
  refine ⟨?_, by rw [h1]; rfl⟩
  rw [NaiveBayes.predict, if_neg (by simp [h1, h2])]
  rw [NaiveBayes.estimate_class_posteriors, h1]
  simp [argmaxIdx]

/-! ### Claim C1: the end-to-end example of the spec -/

/-- The vocabulary of the end-to-end example:
`build_vocab` on `[["good","movie"], ["bad","movie"]]`. -/
def egVocab : List (String × ℕ) := build_vocab [["good", "movie"], ["bad", "movie"]]

/-- The vectorised training examples of the end-to-end example
(count-mode `bag_of_words`, the default `binary=False`). -/
def egFeatures : List (List ℚ) :=
  [bag_of_words ["good", "movie"] egVocab false,
   bag_of_words ["bad", "movie"] egVocab false]

/-- The model of the end-to-end example: `fit` on the two examples with
labels `[1, 0]` and `delta = 1`. -/
def egModel : NaiveBayes := NaiveBayes.fit egFeatures [1, 0] 1

theorem argmaxIdx_pair_of_le (a b : ℝ) (h : b ≤ a) : argmaxIdx [a, b] = 0 := by
  rw [argmaxIdx]
  simp [argmaxIdx, not_lt.mpr h]

/-- **C1**.  End-to-end example: the vocabulary is
`{good: 0, movie: 1, bad: 2}`, `fit` produces priors `1/2` for both
classes (insertion order `[1, 0]`) and conditional vector
`[2/5, 2/5, 1/5] = [0.4, 0.4, 0.2]` for class 1 — exactly as the claim
says — but `predict` on `vectorize(["good","movie"])` returns `0`, not
the claimed class label `1`: it returns the argmax *position*, and class
1 sits at position 0 of the `Counter`-insertion order `[1, 0]`. -/
theorem c1_end_to_end :
    egVocab = [("good", 0), ("movie", 1), ("bad", 2)] ∧
    egModel.class_priors = [(1, 1/2), (0, 1/2)] ∧
    lookupKey egModel.conditional_probabilities 1 = some [2/5, 2/5, 1/5] ∧
    egModel.predict (bag_of_words ["good", "movie"] egVocab false) = some 0 ∧
    egModel.predict (bag_of_words ["good", "movie"] egVocab false) ≠ some 1 := by
  have hv : egVocab = [("good", 0), ("movie", 1), ("bad", 2)] := by decide
  have hg : vocabLookup [("good", 0), ("movie", 1), ("bad", 2)] "good" =
      some 0 := by decide
  have hm : vocabLookup [("good", 0), ("movie", 1), ("bad", 2)] "movie" =
      some 1 := by decide
  have hb : vocabLookup [("good", 0), ("movie", 1), ("bad", 2)] "bad" =
      some 2 := by decide
  have hf1 : bag_of_words ["good", "movie"] egVocab false = [1, 1, 0] := by
    rw [hv]
    norm_num [bag_of_words, bowStep, hg, hm, List.replicate, List.set,
      List.getD]
  have hf2 : bag_of_words ["bad", "movie"] egVocab false = [0, 1, 1] := by
    rw [hv]
    norm_num [bag_of_words, bowStep, hb, hm, List.replicate, List.set,
      List.getD]
  have hmodel : egModel = NaiveBayes.fit [[1, 1, 0], [0, 1, 1]] [1, 0] 1 := by
    rw [egModel, egFeatures, hf1, hf2]
  have hp : egModel.class_priors = [(1, 1/2), (0, 1/2)] := by
    rw [hmodel]
    norm_num [NaiveBayes.fit, estimate_class_priors, firstOccurrences,
      List.count_cons]
  have hc : egModel.conditional_probabilities =
      [(0, [1/5, 2/5, 2/5]), (1, [2/5, 2/5, 1/5])] := by
    rw [hmodel]
    norm_num [NaiveBayes.fit, estimate_conditional_probabilities, uniqueSorted,
      firstOccurrences, List.insertionSort, List.orderedInsert, shape1, vecSum,
      classRows, List.filter, List.zip, List.zipWith, List.replicate]
  have hpred : egModel.predict (bag_of_words ["good", "movie"] egVocab false) =
      some 0 := by
    rw [hf1, NaiveBayes.predict, if_neg (by simp [hp, hc])]
    rw [NaiveBayes.estimate_class_posteriors, hp, hc]
    have hlook0 : lookupKey [((0 : ℤ), [(1 : ℚ)/5, 2/5, 2/5]),
        (1, [2/5, 2/5, 1/5])] 0 = some [1/5, 2/5, 2/5] := by
      norm_num [lookupKey, List.find?]
    have hlook1 : lookupKey [((0 : ℤ), [(1 : ℚ)/5, 2/5, 2/5]),
        (1, [2/5, 2/5, 1/5])] 1 = some [2/5, 2/5, 1/5] := by
      norm_num [lookupKey, List.find?]
    simp only [List.map_cons, List.map_nil, hlook0, hlook1, Option.getD_some,
      List.zipWith_cons_cons, List.zipWith_nil_right, List.sum_cons,
      List.sum_nil]
    have hlog : Real.log ((1 : ℝ)/5) < Real.log ((2 : ℝ)/5) :=
      Real.log_lt_log (by norm_num) (by norm_num)
    congr 1
    norm_cast
    apply argmaxIdx_pair_of_le
    push_cast
    linarith [hlog]
  refine ⟨hv, hp, ?_, hpred, by rw [hpred]; decide⟩
  rw [hc]
  norm_num [lookupKey, List.find?]

/-! ### Claim C5: class priors -/

theorem sum_map_div {α : Type} (l : List α) (f : α → ℚ) (d : ℚ) :
    (l.map (fun c => f c / d)).sum = (l.map f).sum / d := by
  induction l with
  | nil => simp
  | cons x xs ih => simp [ih, add_div]

theorem sum_count_firstOccurrences {α : Type} [DecidableEq α] (l : List α) :
    ((firstOccurrences l).map (fun c => l.count c)).sum = l.length := by
  have hfin : (firstOccurrences l).toFinset = l.toFinset := by
    ext a
    simp [List.mem_toFinset, mem_firstOccurrences]
  rw [← List.sum_toFinset _ (nodup_firstOccurrences l), hfin]
  exact List.sum_toFinset_count_eq_length l

/-- **C5**.  `estimate_class_priors`: one entry per distinct label value
(keys are exactly the labels seen, without duplicates), each prior equals
`count / total`, and the priors sum to exactly 1. -/
theorem c5_class_priors (labels : List ℤ) (h : labels ≠ []) :
    ((estimate_class_priors labels).map Prod.fst).Nodup ∧
    (∀ c : ℤ, c ∈ (estimate_class_priors labels).map Prod.fst ↔ c ∈ labels) ∧
    (∀ c ∈ labels, lookupKey (estimate_class_priors labels) c =
      some ((labels.count c : ℚ) / (labels.length : ℚ))) ∧
    ((estimate_class_priors labels).map Prod.snd).sum = 1 := by
  have hkeys : (estimate_class_priors labels).map Prod.fst =
      firstOccurrences labels := by
    simp [estimate_class_priors, List.map_map, Function.comp_def]
  refine ⟨?_, ?_, ?_, ?_⟩
  · rw [hkeys]
    exact nodup_firstOccurrences labels
  · intro c
    rw [hkeys]
    exact mem_firstOccurrences labels c
  · intro c hc
    exact lookupKey_map_of_nodup _ _ c (nodup_firstOccurrences labels)
      ((mem_firstOccurrences labels c).mpr hc)
  · have hvals : (estimate_class_priors labels).map Prod.snd =
        (firstOccurrences labels).map
          (fun c => (labels.count c : ℚ) / (labels.length : ℚ)) := by
      simp [estimate_class_priors, List.map_map, Function.comp_def]
    have hcast : ((firstOccurrences labels).map
        (fun c => (labels.count c : ℚ))).sum =
        ((((firstOccurrences labels).map (fun c => labels.count c)).sum : ℕ) : ℚ) := by
      rw [Nat.cast_list_sum, List.map_map]
      rfl
    rw [hvals, sum_map_div, hcast, sum_count_firstOccurrences]
    exact div_self (Nat.cast_ne_zero.mpr
      (fun h0 => h (List.length_eq_zero.mp h0)))

/-- Witness for C5 at the concrete label list `[0, 1, 1]`. -/
theorem c5_class_priors_witness :
    ((estimate_class_priors [0, 1, 1]).map Prod.fst).Nodup ∧
    (∀ c : ℤ, c ∈ (estimate_class_priors [0, 1, 1]).map Prod.fst ↔
      c ∈ ([0, 1, 1] : List ℤ)) ∧
    (∀ c ∈ ([0, 1, 1] : List ℤ), lookupKey (estimate_class_priors [0, 1, 1]) c =
      some ((([0, 1, 1] : List ℤ).count c : ℚ) /
        ((([0, 1, 1] : List ℤ).length : ℕ) : ℚ))) ∧
    ((estimate_class_priors [0, 1, 1]).map Prod.snd).sum = 1 :=
  c5_class_priors [0, 1, 1] (by decide)

/-! ### Claim C4: conditional probabilities -/

theorem mem_uniqueSorted (labels : List ℤ) (c : ℤ) :
    c ∈ uniqueSorted labels ↔ c ∈ labels := by
  rw [uniqueSorted, (List.perm_insertionSort _ _).mem_iff,
    mem_firstOccurrences]

theorem nodup_uniqueSorted (labels : List ℤ) : (uniqueSorted labels).Nodup :=
  ((List.perm_insertionSort _ _).nodup_iff).mpr (nodup_firstOccurrences labels)

theorem classRows_mem (features : List (List ℚ)) (labels : List ℤ) (c : ℤ)
    (r : List ℚ) (hr : r ∈ classRows features labels c) : r ∈ features := by
  rw [classRows] at hr
  rcases List.mem_map.mp hr with ⟨p, hp, rfl⟩
  exact (List.of_mem_zip (List.mem_of_mem_filter hp)).1

theorem getD_replicate_zero (n i : ℕ) : (List.replicate n (0 : ℚ)).getD i 0 = 0 := by
  by_cases hi : i < n
  · rw [List.getD_eq_getElem _ _ (by simpa using hi), List.getElem_replicate]
  · exact List.getD_eq_default _ _ (by simpa using not_lt.mp hi)

theorem foldlZipAdd_length (rows : List (List ℚ)) (acc : List ℚ) (n : ℕ)
    (ha : acc.length = n) (h : ∀ r ∈ rows, r.length = n) :
    (rows.foldl (fun a r => List.zipWith (· + ·) a r) acc).length = n := by
  induction rows generalizing acc with
  | nil => simpa
  | cons r rs ih =>
    rw [List.foldl_cons]
    exact ih _ (by rw [List.length_zipWith, ha,
        h r (List.mem_cons_self r rs), min_self])
      (fun r' hr' => h r' (List.mem_cons_of_mem _ hr'))

theorem getD_zipWith_add (a b : List ℚ) (n i : ℕ) (ha : a.length = n)
    (hb : b.length = n) (hi : i < n) :
    (List.zipWith (· + ·) a b).getD i 0 = a.getD i 0 + b.getD i 0 := by
  have hz : i < (List.zipWith (· + ·) a b).length := by
    rw [List.length_zipWith, ha, hb, min_self]
    exact hi
  rw [List.getD_eq_getElem _ _ hz, List.getElem_zipWith,
    ← List.getD_eq_getElem a 0 (ha ▸ hi), ← List.getD_eq_getElem b 0 (hb ▸ hi)]

theorem foldlZipAdd_getD (rows : List (List ℚ)) (acc : List ℚ) (n i : ℕ)
    (hi : i < n) (ha : acc.length = n) (h : ∀ r ∈ rows, r.length = n) :
    (rows.foldl (fun a r => List.zipWith (· + ·) a r) acc).getD i 0 =
      acc.getD i 0 + ((rows.map (fun r => r.getD i 0)).sum) := by
  induction rows generalizing acc with
  | nil => simp
  | cons r rs ih =>
    rw [List.foldl_cons, ih _ (by rw [List.length_zipWith, ha,
        h r (List.mem_cons_self r rs), min_self])
      (fun r' hr' => h r' (List.mem_cons_of_mem _ hr')),
      getD_zipWith_add acc r n i ha (h r (List.mem_cons_self r rs)) hi,
      List.map_cons, List.sum_cons]
    ring

theorem sum_zipWith_add (a b : List ℚ) (h : a.length = b.length) :
    (List.zipWith (· + ·) a b).sum = a.sum + b.sum := by
  induction a generalizing b with
  | nil =>
    cases b with
    | nil => simp
    | cons y ys => simp at h
  | cons x xs ih =>
    cases b with
    | nil => simp at h
    | cons y ys =>
      simp only [List.zipWith_cons_cons, List.sum_cons]
      rw [ih ys (by simpa using h)]
      ring

theorem foldlZipAdd_sum (rows : List (List ℚ)) (acc : List ℚ) (n : ℕ)
    (ha : acc.length = n) (h : ∀ r ∈ rows, r.length = n) :
    (rows.foldl (fun a r => List.zipWith (· + ·) a r) acc).sum =
      acc.sum + (rows.map List.sum).sum := by
  induction rows generalizing acc with
  | nil => simp
  | cons r rs ih =>
    rw [List.foldl_cons, ih _ (by rw [List.length_zipWith, ha,
        h r (List.mem_cons_self r rs), min_self])
      (fun r' hr' => h r' (List.mem_cons_of_mem _ hr')),
      sum_zipWith_add _ _ (by rw [ha, h r (List.mem_cons_self r rs)]),
      List.map_cons, List.sum_cons]
    ring

/-- **C4**.  `estimate_conditional_probabilities` on a non-empty
rectangular feature matrix with matching labels and `delta ≥ 0`: for every
class present in the labels, the stored vector has length `vocab_size` and
its entry `i` equals
`(sum over the class's rows of entry i + delta) /
 (sum over the class's rows of all entries + delta * vocab_size)`;
when `delta > 0` every entry is strictly positive. -/
theorem c4_conditional_probabilities (features : List (List ℚ))
    (labels : List ℤ) (delta : ℚ) (n : ℕ) (hne : features ≠ [])
    (hrect : ∀ r ∈ features, r.length = n)
    (hlen : features.length = labels.length)
    (hnonneg : ∀ r ∈ features, ∀ x ∈ r, 0 ≤ x) (hdel : 0 ≤ delta) :
    ∀ c ∈ labels, ∃ v : List ℚ,
      lookupKey (estimate_conditional_probabilities features labels delta) c
        = some v ∧
      v.length = n ∧
      (∀ i, i < n → v.getD i 0 =
        (((classRows features labels c).map (fun r => r.getD i 0)).sum + delta) /
          (((classRows features labels c).map List.sum).sum +
            delta * (n : ℚ))) ∧
      (0 < delta → ∀ x ∈ v, 0 < x) := by
  intro c hc
  have hn : shape1 features = n := by
    cases features with
    | nil => exact absurd rfl hne
    | cons r rs => simpa [shape1] using hrect r (List.mem_cons_self r rs)
  have hrows : ∀ r ∈ classRows features labels c, r.length = n :=
    fun r hr => hrect r (classRows_mem features labels c r hr)
  have hlenW : (vecSum n (classRows features labels c)).length = n :=
    foldlZipAdd_length _ _ n (List.length_replicate n 0) hrows
  have hWsum : (vecSum n (classRows features labels c)).sum =
      ((classRows features labels c).map List.sum).sum := by
    rw [vecSum, foldlZipAdd_sum _ _ n (List.length_replicate n 0) hrows]
    simp
  have hWget : ∀ i, i < n → (vecSum n (classRows features labels c)).getD i 0 =
      ((classRows features labels c).map (fun r => r.getD i 0)).sum := by
    intro i hi
    rw [vecSum, foldlZipAdd_getD _ _ n i hi (List.length_replicate n 0) hrows,
      getD_replicate_zero, zero_add]
  have hv : lookupKey
      (estimate_conditional_probabilities features labels delta) c =
      some ((vecSum n (classRows features labels c)).map (fun w =>
        (w + delta) / ((vecSum n (classRows features labels c)).sum +
          delta * (n : ℚ)))) := by
    rw [← hn]
    exact lookupKey_map_of_nodup (uniqueSorted labels) _ c
      (nodup_uniqueSorted labels) ((mem_uniqueSorted labels c).mpr hc)
  refine ⟨_, hv, ?_, ?_, ?_⟩
  · rw [List.length_map, hlenW]
  · intro i hi
    rw [List.getD_eq_getElem _ _ (by rw [List.length_map, hlenW]; exact hi),
      List.getElem_map,
      ← List.getD_eq_getElem (vecSum n (classRows features labels c)) 0
        (by rw [hlenW]; exact hi),
      hWget i hi, hWsum]
  · intro hdpos x hx
    rcases List.mem_map.mp hx with ⟨w, hw, rfl⟩
    have hn0 : 0 < n := by
      have h0 : 0 < (vecSum n (classRows features labels c)).length :=
        List.length_pos.mpr (List.ne_nil_of_mem hw)
      rwa [hlenW] at h0
    have hentry : ∀ r ∈ classRows features labels c, ∀ j, j < n →
        0 ≤ r.getD j 0 := by
      intro r hr j hj
      rw [List.getD_eq_getElem r 0 (by rw [hrows r hr]; exact hj)]
      exact hnonneg r (classRows_mem features labels c r hr) _
        (List.getElem_mem _)
    have hw0 : 0 ≤ w := by
      rcases List.mem_iff_getElem.mp hw with ⟨j, hj, rfl⟩
      have hj' : j < n := by rwa [hlenW] at hj
      rw [← List.getD_eq_getElem (vecSum n (classRows features labels c)) 0 hj,
        hWget j hj']
      apply List.sum_nonneg
      intro y hy
      rcases List.mem_map.mp hy with ⟨r, hr, rfl⟩
      exact hentry r hr j hj'
    have hsum0 : 0 ≤ (vecSum n (classRows features labels c)).sum := by
      rw [hWsum]
      apply List.sum_nonneg
      intro y hy
      rcases List.mem_map.mp hy with ⟨r, hr, rfl⟩
      apply List.sum_nonneg
      intro z hz
      exact hnonneg r (classRows_mem features labels c r hr) z hz
    have hdenpos : 0 < (vecSum n (classRows features labels c)).sum +
        delta * (n : ℚ) := by
      have : 0 < delta * (n : ℚ) :=
        mul_pos hdpos (by exact_mod_cast hn0)
      linarith
    exact div_pos (by linarith) hdenpos

/-- Witness for C4 at `features = [[1,0],[0,1]]`, `labels = [0,1]`,
`delta = 1`, class `0`. -/
theorem c4_conditional_probabilities_witness :
    ∃ v : List ℚ,
      lookupKey (estimate_conditional_probabilities [[1, 0], [0, 1]] [0, 1] 1)
        0 = some v ∧
      v.length = 2 ∧
      (∀ i, i < 2 → v.getD i 0 =
        (((classRows [[1, 0], [0, 1]] [0, 1] 0).map
            (fun r => r.getD i 0)).sum + 1) /
          (((classRows [[1, 0], [0, 1]] [0, 1] 0).map List.sum).sum +
            1 * ((2 : ℕ) : ℚ))) ∧
      ((0 : ℚ) < 1 → ∀ x ∈ v, 0 < x) :=
  c4_conditional_probabilities [[1, 0], [0, 1]] [0, 1] 1 2 (by decide)
    (by decide) (by decide)
    (by
      intro r hr x hx
      fin_cases hr <;> fin_cases hx <;> norm_num)
    (by norm_num) 0 (by decide)

/-! ### Claims C6 and C10: `bag_of_words` -/

theorem bowFold_length (vocab : List (String × ℕ)) (b : Bool)
    (t : List String) (v : List ℚ) :
    (t.foldl (bowStep vocab b) v).length = v.length := by
  induction t generalizing v with
  | nil => rfl
  | cons w ws ih =>
    rw [List.foldl_cons, ih]
    rw [bowStep]
    cases vocabLookup vocab w with
    | none => rfl
    | some idx => cases b <;> simp

theorem getD_set_ne (v : List ℚ) (j i : ℕ) (a : ℚ) (hne : j ≠ i) :
    (v.set j a).getD i 0 = v.getD i 0 := by
  rw [List.getD, List.getD, List.get?_eq_getElem?, List.get?_eq_getElem?,
    List.getElem?_set]
  simp [hne]

theorem getD_set_self (v : List ℚ) (j : ℕ) (a : ℚ) (hj : j < v.length) :
    (v.set j a).getD j 0 = a := by
  rw [List.getD, List.get?_eq_getElem?, List.getElem?_set]
  simp [hj]

theorem bowStep_none (vocab : List (String × ℕ)) (b : Bool) (v : List ℚ)
    (w : String) (hw : vocabLookup vocab w = none) :
    bowStep vocab b v w = v := by
  simp only [bowStep, hw]

theorem bowStep_some_count (vocab : List (String × ℕ)) (v : List ℚ)
    (w : String) (j : ℕ) (hw : vocabLookup vocab w = some j) :
    bowStep vocab false v w = v.set j (v.getD j 0 + 1) := by
  simp only [bowStep, hw, Bool.false_eq_true, if_false]

theorem bowStep_some_bin (vocab : List (String × ℕ)) (v : List ℚ)
    (w : String) (j : ℕ) (hw : vocabLookup vocab w = some j) :
    bowStep vocab true v w = v.set j 1 := by
  simp only [bowStep, hw, if_true]

theorem bowFold_count_getD (vocab : List (String × ℕ)) (t : List String)
    (v : List ℚ) (i : ℕ) (hi : i < v.length) :
    (t.foldl (bowStep vocab false) v).getD i 0 =
      v.getD i 0 +
        ((t.filter (fun w => decide (vocabLookup vocab w = some i))).length : ℚ) := by
  induction t generalizing v with
  | nil => simp
  | cons w ws ih =>
    rw [List.foldl_cons, List.filter_cons]
    rcases hw : vocabLookup vocab w with _ | j
    · rw [bowStep_none vocab false v w hw, ih v hi]
      simp [hw]
    · rw [bowStep_some_count vocab v w j hw,
        ih _ (by rw [List.length_set]; exact hi)]
      by_cases hji : j = i
      · subst hji
        rw [getD_set_self v j _ hi,
          if_pos (show decide ((some j : Option ℕ) = some j) = true by simp),
          List.length_cons]
        push_cast
        ring
      · rw [getD_set_ne v j i _ hji,
          if_neg (show ¬decide ((some j : Option ℕ) = some i) = true by
            simp [hji])]

theorem bowFold_bin_getD (vocab : List (String × ℕ)) (t : List String)
    (v : List ℚ) (i : ℕ) (hi : i < v.length) :
    (t.foldl (bowStep vocab true) v).getD i 0 =
      if ∃ w, w ∈ t ∧ vocabLookup vocab w = some i then 1
      else v.getD i 0 := by
  induction t generalizing v with
  | nil => simp
  | cons w ws ih =>
    rw [List.foldl_cons]
    rcases hw : vocabLookup vocab w with _ | j
    · rw [bowStep_none vocab true v w hw, ih v hi]
      by_cases hex : ∃ w', w' ∈ ws ∧ vocabLookup vocab w' = some i
      · rw [if_pos hex, if_pos]
        rcases hex with ⟨w', hw1, hw2⟩
        exact ⟨w', List.mem_cons_of_mem _ hw1, hw2⟩
      · rw [if_neg hex, if_neg]
        rintro ⟨w', hw1, hw2⟩
        rcases List.mem_cons.mp hw1 with rfl | hw1'
        · rw [hw] at hw2
          cases hw2
        · exact hex ⟨w', hw1', hw2⟩
    · rw [bowStep_some_bin vocab v w j hw,
        ih _ (by rw [List.length_set]; exact hi)]
      by_cases hji : j = i
      · subst hji
        have houter : ∃ w', w' ∈ w :: ws ∧ vocabLookup vocab w' = some j :=
          ⟨w, List.mem_cons_self w ws, hw⟩
        by_cases hex : ∃ w', w' ∈ ws ∧ vocabLookup vocab w' = some j
        · rw [if_pos hex, if_pos houter]
        · rw [if_neg hex, if_pos houter, getD_set_self v j _ hi]
      · rw [getD_set_ne v j i _ hji]
        by_cases hex : ∃ w', w' ∈ ws ∧ vocabLookup vocab w' = some i
        · rw [if_pos hex, if_pos]
          rcases hex with ⟨w', hw1, hw2⟩
          exact ⟨w', List.mem_cons_of_mem _ hw1, hw2⟩
        · rw [if_neg hex, if_neg]
          rintro ⟨w', hw1, hw2⟩
          rcases List.mem_cons.mp hw1 with rfl | hw1'
          · rw [hw] at hw2
            exact hji (Option.some.inj hw2)
          · exact hex ⟨w', hw1', hw2⟩

theorem bag_of_words_length (t : List String) (vocab : List (String × ℕ))
    (b : Bool) : (bag_of_words t vocab b).length = vocab.length := by
  rw [bag_of_words, bowFold_length, List.length_replicate]

theorem bag_of_words_count_getD (t : List String)
    (vocab : List (String × ℕ)) (i : ℕ) (hi : i < vocab.length) :
    (bag_of_words t vocab false).getD i 0 =
      ((t.filter (fun w => decide (vocabLookup vocab w = some i))).length : ℚ) := by
  rw [bag_of_words, bowFold_count_getD vocab t _ i
    (by rw [List.length_replicate]; exact hi), getD_replicate_zero, zero_add]

theorem bag_of_words_bin_getD (t : List String)
    (vocab : List (String × ℕ)) (i : ℕ) (hi : i < vocab.length) :
    (bag_of_words t vocab true).getD i 0 =
      if ∃ w, w ∈ t ∧ vocabLookup vocab w = some i then 1 else 0 := by
  rw [bag_of_words, bowFold_bin_getD vocab t _ i
    (by rw [List.length_replicate]; exact hi), getD_replicate_zero]

/-- **C6**.  `bag_of_words`: the vector always has length `len(vocab)`
(so out-of-vocabulary tokens never extend it); in binary mode every entry
is 0 or 1, and entry `i` is 1 exactly when some token of the text carries
vocabulary index `i`; in count mode entry `i` is the number of occurrences
of the word with index `i` (so out-of-vocabulary tokens contribute
nothing).  The hypothesis is the dict-ness of the vocabulary: its keys are
unique. -/
theorem c6_bag_of_words (T : List String) (vocab : List (String × ℕ))
    (b : Bool) (hkeys : (vocab.map Prod.fst).Nodup) :
    (bag_of_words T vocab b).length = vocab.length ∧
    (∀ i, i < vocab.length →
      ((bag_of_words T vocab true).getD i 0 = 0 ∨
        (bag_of_words T vocab true).getD i 0 = 1) ∧
      ((bag_of_words T vocab true).getD i 0 = 1 ↔
        ∃ w, w ∈ T ∧ (w, i) ∈ vocab) ∧
      (bag_of_words T vocab false).getD i 0 =
        ((T.filter (fun w => decide ((w, i) ∈ vocab))).length : ℚ)) := by
  refine ⟨bag_of_words_length T vocab b, ?_⟩
  intro i hi
  have hiff : ∀ w : String, vocabLookup vocab w = some i ↔ (w, i) ∈ vocab :=
    fun w => vocabLookup_eq_some_iff vocab hkeys w i
  refine ⟨?_, ?_, ?_⟩
  · rw [bag_of_words_bin_getD T vocab i hi]
    by_cases hex : ∃ w, w ∈ T ∧ vocabLookup vocab w = some i
    · rw [if_pos hex]
      exact Or.inr rfl
    · rw [if_neg hex]
      exact Or.inl rfl
  · rw [bag_of_words_bin_getD T vocab i hi]
    by_cases hex : ∃ w, w ∈ T ∧ vocabLookup vocab w = some i
    · rw [if_pos hex]
      constructor
      · intro _
        rcases hex with ⟨w, h1, h2⟩
        exact ⟨w, h1, (hiff w).mp h2⟩
      · intro _
        rfl
    · rw [if_neg hex]
      constructor
      · intro h0
        exact absurd h0 (by norm_num)
      · rintro ⟨w, h1, h2⟩
        exact absurd ⟨w, h1, (hiff w).mpr h2⟩ hex
  · rw [bag_of_words_count_getD T vocab i hi]
    have hfil : T.filter (fun w => decide (vocabLookup vocab w = some i)) =
        T.filter (fun w => decide ((w, i) ∈ vocab)) :=
      List.filter_congr (fun w _ => by
        simp only [decide_eq_decide]
        exact hiff w)
    rw [hfil]

/-- Witness for C6 at vocabulary `{good: 0, movie: 1, bad: 2}` and text
`["movie", "zzz", "movie"]` (with an out-of-vocabulary token). -/
theorem c6_bag_of_words_witness :
    (([("good", 0), ("movie", 1), ("bad", 2)] :
      List (String × ℕ)).map Prod.fst).Nodup ∧
    ((bag_of_words ["movie", "zzz", "movie"]
        [("good", 0), ("movie", 1), ("bad", 2)] false).length =
      ([("good", 0), ("movie", 1), ("bad", 2)] : List (String × ℕ)).length ∧
    (∀ i, i < ([("good", 0), ("movie", 1), ("bad", 2)] :
        List (String × ℕ)).length →
      ((bag_of_words ["movie", "zzz", "movie"]
          [("good", 0), ("movie", 1), ("bad", 2)] true).getD i 0 = 0 ∨
        (bag_of_words ["movie", "zzz", "movie"]
          [("good", 0), ("movie", 1), ("bad", 2)] true).getD i 0 = 1) ∧
      ((bag_of_words ["movie", "zzz", "movie"]
          [("good", 0), ("movie", 1), ("bad", 2)] true).getD i 0 = 1 ↔
        ∃ w, w ∈ (["movie", "zzz", "movie"] : List String) ∧
          (w, i) ∈ ([("good", 0), ("movie", 1), ("bad", 2)] :
            List (String × ℕ))) ∧
      (bag_of_words ["movie", "zzz", "movie"]
          [("good", 0), ("movie", 1), ("bad", 2)] false).getD i 0 =
        (((["movie", "zzz", "movie"] : List String).filter
          (fun w => decide ((w, i) ∈ ([("good", 0), ("movie", 1), ("bad", 2)] :
            List (String × ℕ))))).length : ℚ))) :=
  ⟨by decide, c6_bag_of_words ["movie", "zzz", "movie"]
    [("good", 0), ("movie", 1), ("bad", 2)] false (by decide)⟩

/-- **C10**.  Count-mode vectorisation is additive over concatenation, and
binary-mode vectorisation of `T ++ T` equals that of `T`. -/
theorem c10_bag_of_words_concat (T1 T2 : List String)
    (vocab : List (String × ℕ)) :
    bag_of_words (T1 ++ T2) vocab false =
      List.zipWith (· + ·) (bag_of_words T1 vocab false)
        (bag_of_words T2 vocab false) ∧
    bag_of_words (T1 ++ T1) vocab true = bag_of_words T1 vocab true := by
  constructor
  · apply List.ext_getElem
    · rw [bag_of_words_length, List.length_zipWith, bag_of_words_length,
        bag_of_words_length, min_self]
    · intro i h1 h2
      have hi : i < vocab.length := by
        rwa [bag_of_words_length] at h1
      rw [← List.getD_eq_getElem _ 0 h1, ← List.getD_eq_getElem _ 0 h2,
        getD_zipWith_add _ _ vocab.length i (bag_of_words_length T1 vocab false)
          (bag_of_words_length T2 vocab false) hi,
        bag_of_words_count_getD _ _ _ hi, bag_of_words_count_getD _ _ _ hi,
        bag_of_words_count_getD _ _ _ hi, List.filter_append,
        List.length_append]
      push_cast
      ring
  · apply List.ext_getElem
    · rw [bag_of_words_length, bag_of_words_length]
    · intro i h1 h2
      have hi : i < vocab.length := by
        rwa [bag_of_words_length] at h2
      have hcond : (∃ w, w ∈ T1 ++ T1 ∧ vocabLookup vocab w = some i) ↔
          ∃ w, w ∈ T1 ∧ vocabLookup vocab w = some i := by
        constructor
        · rintro ⟨w, hw, hl⟩
          rcases List.mem_append.mp hw with h | h <;> exact ⟨w, h, hl⟩
        · rintro ⟨w, hw, hl⟩
          exact ⟨w, List.mem_append_left _ hw, hl⟩
      rw [← List.getD_eq_getElem _ 0 h1, ← List.getD_eq_getElem _ 0 h2,
        bag_of_words_bin_getD _ _ _ hi, bag_of_words_bin_getD _ _ _ hi,
        if_congr hcond rfl rfl]

/-! ### Claim C7: `build_vocab` -/

/-- Specification-side form of the vocabulary: the first occurrences of
the token stream, in order, paired with the indices `0, 1, 2, …`. -/
def canonicalVocab (tokens : List String) : List (String × ℕ) :=
  (firstOccurrences tokens).zip (List.range (firstOccurrences tokens).length)

theorem canonicalVocab_map_fst (t : List String) :
    (canonicalVocab t).map Prod.fst = firstOccurrences t :=
  List.map_fst_zip _ _ (by rw [List.length_range])

theorem canonicalVocab_map_snd (t : List String) :
    (canonicalVocab t).map Prod.snd =
      List.range (firstOccurrences t).length :=
  List.map_snd_zip _ _ (by rw [List.length_range])

theorem canonicalVocab_length (t : List String) :
    (canonicalVocab t).length = (firstOccurrences t).length := by
  rw [canonicalVocab, List.length_zip, List.length_range, min_self]

theorem buildVocabStep_canonical (t : List String) (w : String) :
    buildVocabStep (canonicalVocab t, (firstOccurrences t).length) w =
      (canonicalVocab (t ++ [w]), (firstOccurrences (t ++ [w])).length) := by
  by_cases hw : w ∈ t
  · have hmem : w ∈ (canonicalVocab t).map Prod.fst := by
      rw [canonicalVocab_map_fst]
      exact (mem_firstOccurrences t w).mpr hw
    have hfo : firstOccurrences (t ++ [w]) = firstOccurrences t := by
      rw [firstOccurrences_append_singleton, if_pos hw]
    rw [buildVocabStep, if_pos hmem]
    simp only [canonicalVocab, hfo]
  · have hmem : w ∉ (canonicalVocab t).map Prod.fst := by
      rw [canonicalVocab_map_fst]
      exact fun hc => hw ((mem_firstOccurrences t w).mp hc)
    have hfo : firstOccurrences (t ++ [w]) = firstOccurrences t ++ [w] := by
      rw [firstOccurrences_append_singleton, if_neg hw]
    rw [buildVocabStep, if_neg hmem]
    simp only [canonicalVocab, hfo, List.length_append, List.length_singleton]
    rw [List.range_succ, List.zip_append (by rw [List.length_range])]
    rfl

theorem foldl_buildVocabStep_canonical (words t : List String) :
    words.foldl buildVocabStep
        (canonicalVocab t, (firstOccurrences t).length) =
      (canonicalVocab (t ++ words), (firstOccurrences (t ++ words)).length) := by
  induction words generalizing t with
  | nil => rw [List.foldl_nil, List.append_nil]
  | cons w ws ih =>
    rw [List.foldl_cons, buildVocabStep_canonical t w, ih (t ++ [w]),
      List.append_assoc, List.singleton_append]

theorem foldl_examples_canonical (examples : List (List String))
    (t : List String) :
    examples.foldl (fun st words => words.foldl buildVocabStep st)
        (canonicalVocab t, (firstOccurrences t).length) =
      (canonicalVocab (t ++ examples.flatten),
        (firstOccurrences (t ++ examples.flatten)).length) := by
  induction examples generalizing t with
  | nil => rw [List.foldl_nil, List.flatten_nil, List.append_nil]
  | cons ws rest ih =>
    rw [List.foldl_cons]
    show rest.foldl _ (ws.foldl buildVocabStep _) = _
    rw [foldl_buildVocabStep_canonical ws t, ih (t ++ ws), List.flatten_cons,
      List.append_assoc]

/-- **C7**.  `build_vocab` equals the canonical vocabulary: the distinct
tokens in order of first occurrence (iterating examples in order, tokens
within an example in order) zipped with `0, 1, 2, …`.  Hence the assigned
indices are exactly the dense range `[0, size)` in strictly increasing
order of first occurrence, and the keys contain no duplicates. -/
theorem c7_build_vocab (examples : List (List String)) :
    build_vocab examples = canonicalVocab examples.flatten ∧
    (build_vocab examples).map Prod.snd =
      List.range (build_vocab examples).length ∧
    ((build_vocab examples).map Prod.fst).Nodup := by
  have h : build_vocab examples = canonicalVocab examples.flatten := by
    rw [build_vocab]
    have h0 : (([], 0) : List (String × ℕ) × ℕ) =
        (canonicalVocab [], (firstOccurrences ([] : List String)).length) :=
      rfl
    rw [h0, foldl_examples_canonical examples [], List.nil_append]
  refine ⟨h, ?_, ?_⟩
  · rw [h, canonicalVocab_map_snd, canonicalVocab_length]
  · rw [h, canonicalVocab_map_fst]
    exact nodup_firstOccurrences _

/-! ### Claim C8: `predict_proba` -/

theorem sum_map_div_real (l : List ℝ) (g : ℝ → ℝ) (d : ℝ) :
    (l.map (fun x => g x / d)).sum = (l.map g).sum / d := by
  induction l with
  | nil => simp
  | cons x xs ih => simp [ih, add_div]

theorem exp_sum_pos (l : List ℝ) (hl : l ≠ []) : 0 < (l.map Real.exp).sum := by
  apply List.sum_pos
  · intro y hy
    rcases List.mem_map.mp hy with ⟨b, _, rfl⟩
    exact Real.exp_pos b
  · exact fun h => hl (List.map_eq_nil_iff.mp h)

theorem softmax_pos (l : List ℝ) (hl : l ≠ []) (x : ℝ)
    (hx : x ∈ softmax l) : 0 < x := by
  rcases List.mem_map.mp hx with ⟨a, _, rfl⟩
  exact div_pos (Real.exp_pos a) (exp_sum_pos l hl)

theorem softmax_sum (l : List ℝ) (hl : l ≠ []) : (softmax l).sum = 1 := by
  rw [softmax, sum_map_div_real l Real.exp ((l.map Real.exp).sum)]
  exact div_self (ne_of_gt (exp_sum_pos l hl))

theorem uniqueSorted_ne_nil (labels : List ℤ) (h : labels ≠ []) :
    uniqueSorted labels ≠ [] := by
  intro hc
  have h2 := List.perm_insertionSort (fun a b : ℤ => a ≤ b)
    (firstOccurrences labels)
  rw [uniqueSorted] at hc
  rw [hc] at h2
  exact firstOccurrences_ne_nil labels h (h2.symm.eq_nil)

/-- **C8**.  For a model trained on a non-empty label list,
`predict_proba` returns the softmax of the log-posterior vector (same
class ordering), a list of strictly positive reals summing to exactly 1. -/
theorem c8_predict_proba_softmax (features : List (List ℚ))
    (labels : List ℤ) (delta : ℚ) (f : List ℚ) (hl : labels ≠ [])
    (hf : f.length = shape1 features) :
    ∃ p : List ℝ,
      (NaiveBayes.fit features labels delta).predict_proba f = some p ∧
      p = softmax
        ((NaiveBayes.fit features labels delta).estimate_class_posteriors f) ∧
      (∀ x ∈ p, 0 < x) ∧ p.sum = 1 := by
  have hpr : (NaiveBayes.fit features labels delta).class_priors ≠ [] := by
    show estimate_class_priors labels ≠ []
    rw [estimate_class_priors]
    intro hc
    exact firstOccurrences_ne_nil labels hl (List.map_eq_nil_iff.mp hc)
  have hcp : (NaiveBayes.fit features labels delta).conditional_probabilities
      ≠ [] := by
    show estimate_conditional_probabilities features labels delta ≠ []
    rw [estimate_conditional_probabilities]
    intro hc
    exact uniqueSorted_ne_nil labels hl (List.map_eq_nil_iff.mp hc)
  have hpost : (NaiveBayes.fit features labels delta).estimate_class_posteriors
      f ≠ [] := by
    apply List.ne_nil_of_length_pos
    rw [estimate_class_posteriors_length]
    exact List.length_pos.mpr hpr
  refine ⟨_, ?_, rfl, ?_, ?_⟩
  · rw [NaiveBayes.predict_proba, if_neg (by push_neg; exact ⟨hpr, hcp⟩)]
  · intro x hx
    exact softmax_pos _ hpost x hx
  · exact softmax_sum _ hpost

/-- Witness for C8 at `features = [[1]]`, `labels = [0]`, `delta = 1`,
feature `[1]`. -/
theorem c8_predict_proba_softmax_witness :
    ∃ p : List ℝ,
      (NaiveBayes.fit [[1]] [0] 1).predict_proba [1] = some p ∧
      p = softmax
        ((NaiveBayes.fit [[1]] [0] 1).estimate_class_posteriors [1]) ∧
      (∀ x ∈ p, 0 < x) ∧ p.sum = 1 :=
  c8_predict_proba_softmax [[1]] [0] 1 [1] (by decide) (by decide)

end NBPipeline
